import Mathlib

/-!
Verification of the two algorithmic kernels of the repository:

* `SegmentProcessor::find_minimum_points_to_cover_all_segments` (interval
  point cover, file `src/unnamed/part_000`),
* `FileReader::read_segments_from_file` (line-oriented interval reader,
  same file),
* `minimum_total` (triangle minimum path sum, file `src/task_5/main.cpp`).

The C++ code is shallowly embedded: `std::vector` becomes `List`, the C++
`int` values become `Int` (the claims under study do not involve machine
overflow), thrown exceptions become `Except`, and the imperative loops
become structurally recursive functions that perform the same sequence of
state updates.
-/

namespace SegmentProcessor

/-- Error thrown by the validation loop of
`find_minimum_points_to_cover_all_segments`: the index of the offending
segment together with its two endpoints (`segment.first`, `segment.second`). -/
structure ValidationError where
  index : Nat
  startVal : Int
  endVal : Int
deriving DecidableEq, Repr

/-- Embedding of the validation loop (`for (size_t i = 0; ...)` with
`if (segment.first > segment.second) throw`): returns the error for the
first segment whose start exceeds its end, `none` if all segments are valid.
The parameter `i` is the index of the first element of the remaining list. -/
def findInvalidAux (i : Nat) : List (Int × Int) → Option ValidationError
  | [] => none
  | (a, b) :: rest =>
    if a > b then some ⟨i, a, b⟩ else findInvalidAux (i + 1) rest

/-- Embedding of `std::sort(..., [](a, b){ return a.second < b.second; })`:
the working copy of the segments sorted ascending by right endpoint.
Insertion sort is used as a deterministic, stable realization of the
unspecified tie order of `std::sort`. -/
def sortSegments (segments : List (Int × Int)) : List (Int × Int) :=
  List.insertionSort (fun a b => a.2 ≤ b.2) segments

/-- Embedding of the selection sweep: `current` is `current_covering_point`
(initialized to `-1` by the C++ code), and a new point equal to the
segment's end is selected exactly when
`current_covering_point == -1 || current_covering_point < segment_start`. -/
def selectPoints (current : Int) : List (Int × Int) → List Int
  | [] => []
  | (s, e) :: rest =>
    if current = -1 ∨ current < s then e :: selectPoints e rest
    else selectPoints current rest

/-- Embedding of `find_minimum_points_to_cover_all_segments`: empty input
returns `(0, [])`; a segment with `start > end` raises (here: returns) a
`ValidationError`; otherwise the segments are sorted by right endpoint and
swept with `current_covering_point` starting at `-1`. -/
def find_minimum_points_to_cover_all_segments (segments : List (Int × Int)) :
    Except ValidationError (Nat × List Int) :=
  if segments.length = 0 then Except.ok (0, [])
  else
    match findInvalidAux 0 segments with
    | some err => Except.error err
    | none =>
      let pts := selectPoints (-1) (sortSegments segments)
      Except.ok (pts.length, pts)

/-- Modelled from the spec (§4.1): the reference sweep keeps an *optional*
current covering point, initially undefined (`none`), and selects a new
point exactly when no point is yet chosen or the current point is strictly
less than the segment's start. -/
def specSelect : Option Int → List (Int × Int) → List Int
  | _, [] => []
  | cur, (s, e) :: rest =>
    match cur with
    | none => e :: specSelect (some e) rest
    | some c => if c < s then e :: specSelect (some e) rest else specSelect (some c) rest

/-- The spec's reference result (§4.1): sort by right endpoint, then sweep
with an initially undefined covering point. -/
def find_minimum_points_spec (segments : List (Int × Int)) : List Int :=
  specSelect none (sortSegments segments)

/-- Sweep with an optional current point whose selection condition matches
the code: select when no point is chosen yet, when the current point equals
`-1`, or when the current point is strictly below the segment's start.  This
is the behaviour the `-1` sentinel of the C++ code actually implements. -/
def sentinelSelect : Option Int → List (Int × Int) → List Int
  | _, [] => []
  | cur, (s, e) :: rest =>
    match cur with
    | none => e :: sentinelSelect (some e) rest
    | some c =>
      if c = -1 ∨ c < s then e :: sentinelSelect (some e) rest
      else sentinelSelect (some c) rest

end SegmentProcessor

namespace FileReader

/-- Parse outcome of one physical data line of the input file, as observed
by the reading loop of `read_segments_from_file`: the line is empty
(`line.empty()`), it parses as two whitespace-separated integers
(`line_ss >> start >> end` succeeds), or it is malformed (the extraction
fails). -/
inductive Line where
  | blank : Line
  | data : Int → Int → Line
  | malformed : Line
deriving DecidableEq, Repr

/-- Whether a line is empty (`line.empty()` in the C++ loop). -/
def Line.isBlank : Line → Bool
  | Line.blank => true
  | _ => false

/-- Number of lines that parse as two integers. -/
def dataCount (lines : List Line) : Nat :=
  lines.countP (fun l => match l with | Line.data _ _ => true | _ => false)

/-- Errors thrown by `read_segments_from_file` after the header line:
`parseError` for a non-empty line that does not parse as two integers
("Invalid segment data"), `prematureEnd` for end of file before the declared
number of segments has been read ("Unexpected end of file"). -/
inductive ReadError where
  | parseError : ReadError
  | prematureEnd : ReadError
deriving DecidableEq, Repr

/-- Embedding of the reading loop
`while (std::getline(file, line) && segments_read < total_segments_count)`
followed by the `segments_read < total_segments_count` end-of-file check:
empty lines are skipped, malformed lines throw, data lines are normalized to
`(min a b, max a b)` and appended, and the loop stops once `total` segments
have been read.  `read` is `segments_read`, `acc` is `segments_data`. -/
def read_loop (total : Nat) : List Line → Nat → List (Int × Int) →
    Except ReadError (List (Int × Int))
  | [], read, acc =>
    if read < total then Except.error ReadError.prematureEnd else Except.ok acc
  | l :: rest, read, acc =>
    if read < total then
      match l with
      | Line.blank => read_loop total rest read acc
      | Line.malformed => Except.error ReadError.parseError
      | Line.data a b => read_loop total rest (read + 1) (acc ++ [(min a b, max a b)])
    else Except.ok acc

/-- Embedding of `read_segments_from_file` after the header line has been
parsed: `total` is the declared segment count `total_segments_count`
(the claims under study restrict it to non-negative values), `lines` are the
remaining physical lines of the file. -/
def read_segments_from_file (lines : List Line) (total : Nat) :
    Except ReadError (List (Int × Int)) :=
  read_loop total lines 0 []

end FileReader

namespace TrianglePathSolver

/-- One step of the bottom-up DP fill of `minimum_total`
(`dp[i][j] = triangle[i][j] + std::min(dp[i+1][j], dp[i+1][j+1])` for each
column `j` of row `i`): `row` is `triangle[i]`, `next` is `dp[i+1]`. -/
def dpRow : List Int → List Int → List Int
  | [], _ => []
  | _ :: _, [] => []
  | _ :: _, [_] => []
  | x :: xs, y1 :: y2 :: ys => (x + min y1 y2) :: dpRow xs (y2 :: ys)

/-- The full DP table of `minimum_total`, built bottom-up: the last DP row
equals the last triangle row, and every other DP row is obtained from the
row below it by `dpRow`. -/
def dpTable : List (List Int) → List (List Int)
  | [] => []
  | row :: rest =>
    match dpTable rest with
    | [] => [row]
    | next :: tail => dpRow row next :: next :: tail

/-- Embedding of the path-reconstruction loop of `minimum_total`
(`for (int i = 1; i < n; ++i)`): `c` is `current_col`, `prevT` and `prevDp`
are `triangle[i-1]` and `dp[i-1]`, and the list holds the remaining pairs
`(triangle[i], dp[i])`.  `expected` is `expected_value`; on equality the
column stays, otherwise it advances by one. -/
def pathFrom (c : Nat) (prevT prevDp : List Int) :
    List (List Int × List Int) → List Int
  | [] => []
  | (row, dprow) :: rest =>
    if dprow.getD c 0 = prevDp.getD c 0 - prevT.getD c 0 then
      row.getD c 0 :: pathFrom c row dprow rest
    else
      row.getD (c + 1) 0 :: pathFrom (c + 1) row dprow rest

/-- Embedding of `minimum_total`: an empty triangle or an empty first row
returns `(0, [])`; otherwise the DP table is filled bottom-up, the total is
`dp[0][0]`, and the path starts at `triangle[0][0]` and is extended by the
reconstruction loop. -/
def minimum_total (triangle : List (List Int)) : Int × List Int :=
  match triangle with
  | [] => (0, [])
  | row0 :: rest =>
    if row0.isEmpty then (0, [])
    else
      let dp := dpTable (row0 :: rest)
      let dp0 := dp.headD []
      let path := row0.getD 0 0 :: pathFrom 0 row0 dp0 (rest.zip dp.tail)
      (dp0.getD 0 0, path)

/-- Row-length discipline of a triangle: the first row of `t` has `k`
entries and each following row has one entry more than its predecessor.
`rowLens 1 t` states that row `i` (0-indexed) has exactly `i + 1` entries. -/
def rowLens : Nat → List (List Int) → Bool
  | _, [] => true
  | k, row :: rest => row.length == k && rowLens (k + 1) rest

/-- A triangle is well-formed when row `i` has exactly `i + 1` entries. -/
def WellFormed (t : List (List Int)) : Prop :=
  rowLens 1 t = true

/-- Minimum achievable sum of a top-to-bottom path that starts at column `j`
of the first row of `t` and moves from each row to the same or the next
column of the row below — the value the spec's recurrence
`dp[i][j] = triangle[i][j] + min(dp[i+1][j], dp[i+1][j+1])` assigns to the
cell `(0, j)` of `t`. -/
def minFrom : List (List Int) → Nat → Int
  | [], _ => 0
  | [row], j => row.getD j 0
  | row :: next :: rest, j =>
    row.getD j 0 + min (minFrom (next :: rest) j) (minFrom (next :: rest) (j + 1))

/-- Adjacency discipline of a column sequence: each column is equal to or
one greater than its predecessor. -/
def AdjChain : List Nat → Prop
  | [] => True
  | [_] => True
  | a :: b :: rest => (b = a ∨ b = a + 1) ∧ AdjChain (b :: rest)

/-- A valid selection of columns for a path through `t` starting at column
`j` of the first row: one in-range column per row, adjacent steps. -/
def ValidPathFrom (j : Nat) (t : List (List Int)) (cs : List Nat) : Prop :=
  cs.head? = some j ∧ AdjChain cs ∧
    List.Forall₂ (fun (row : List Int) (c : Nat) => c < row.length) t cs

/-- A valid top-to-bottom path through `t`: starts at the single top entry
(column 0 of row 0). -/
def ValidPath (t : List (List Int)) (cs : List Nat) : Prop :=
  ValidPathFrom 0 t cs

/-- The entries of `t` along a column sequence `cs`. -/
def pathEntries (t : List (List Int)) (cs : List Nat) : List Int :=
  List.zipWith (fun (row : List Int) (c : Nat) => row.getD c 0) t cs

/-- The sum of the entries of `t` along a column sequence `cs`. -/
def pathSum (t : List (List Int)) (cs : List Nat) : Int :=
  (pathEntries t cs).sum

/-- Test case `Basic Triangle 1` of the repository's own test suite
(`TriangleTests::get_basic_tests`): expected sum `11`, path `[2, 3, 5, 1]`. -/
def exampleTriangle : List (List Int) := [[2], [3, 4], [6, 5, 7], [4, 1, 8, 3]]

end TrianglePathSolver

namespace SegmentProcessor

namespace Lemmas

instance : IsTotal (Int × Int) (fun a b => a.2 ≤ b.2) :=
  ⟨fun a b => le_total a.2 b.2⟩

instance : IsTrans (Int × Int) (fun a b => a.2 ≤ b.2) :=
  ⟨fun _ _ _ h1 h2 => le_trans h1 h2⟩

theorem sortSegments_perm (segments : List (Int × Int)) :
    List.Perm (sortSegments segments) segments :=
  List.perm_insertionSort _ segments

theorem sortSegments_sorted (segments : List (Int × Int)) :
    List.Pairwise (fun a b => a.2 ≤ b.2) (sortSegments segments) :=
  List.sorted_insertionSort _ segments

theorem mem_sortSegments {x : Int × Int} {segments : List (Int × Int)} :
    x ∈ sortSegments segments ↔ x ∈ segments :=
  (sortSegments_perm segments).mem_iff

theorem findInvalidAux_eq_none :
    ∀ (segs : List (Int × Int)) (i : Nat),
      (∀ x ∈ segs, x.1 ≤ x.2) → findInvalidAux i segs = none := by
  intro segs
  induction segs with
  | nil => intro i _; rfl
  | cons hd tl ih =>
    obtain ⟨a, b⟩ := hd
    intro i h
    have hab : a ≤ b := h (a, b) (List.mem_cons_self _ _)
    have : ¬ a > b := not_lt.mpr hab
    simp only [findInvalidAux, if_neg this]
    exact ih (i + 1) fun x hx => h x (List.mem_cons_of_mem _ hx)

theorem findInvalidAux_spec :
    ∀ (segs : List (Int × Int)) (i : Nat),
      (∃ x ∈ segs, x.1 > x.2) →
      ∃ j s e, findInvalidAux i segs = some ⟨i + j, s, e⟩ ∧
        j < segs.length ∧ segs.getD j (0, 0) = (s, e) ∧ s > e ∧
        ∀ m < j, (segs.getD m (0, 0)).1 ≤ (segs.getD m (0, 0)).2 := by
  intro segs
  induction segs with
  | nil => intro i h; simp at h
  | cons hd tl ih =>
    obtain ⟨a, b⟩ := hd
    intro i h
    by_cases hab : a > b
    · refine ⟨0, a, b, ?_, ?_, ?_, hab, ?_⟩
      · simp [findInvalidAux, hab]
      · simp
      · rfl
      · intro m hm; omega
    · have htl : ∃ x ∈ tl, x.1 > x.2 := by
        rcases h with ⟨x, hx, hgt⟩
        rcases List.mem_cons.mp hx with rfl | hx
        · exact absurd hgt hab
        · exact ⟨x, hx, hgt⟩
      obtain ⟨j, s, e, heq, hj, hget, hse, hmin⟩ := ih (i + 1) htl
      refine ⟨j + 1, s, e, ?_, by simpa using hj, by simpa using hget, hse, ?_⟩
      · have harith : i + 1 + j = i + (j + 1) := by omega
        simp only [findInvalidAux, if_neg hab]
        rw [heq, harith]
      · intro m hm
        match m with
        | 0 => exact not_lt.mp hab
        | Nat.succ m2 =>
          have : m2 < j := by omega
          simpa using hmin m2 this

theorem selectPoints_eq_sentinelSelect :
    ∀ (segs : List (Int × Int)) (c : Int),
      selectPoints c segs = sentinelSelect (some c) segs := by
  intro segs
  induction segs with
  | nil => intro c; rfl
  | cons hd tl ih =>
    obtain ⟨s, e⟩ := hd
    intro c
    by_cases hc : c = -1 ∨ c < s
    · simp only [selectPoints, sentinelSelect, if_pos hc]
      rw [ih]
    · simp only [selectPoints, sentinelSelect, if_neg hc]
      rw [ih]

theorem selectPoints_neg_one_eq_sentinelSelect_none :
    ∀ (segs : List (Int × Int)),
      selectPoints (-1) segs = sentinelSelect none segs := by
  intro segs
  cases segs with
  | nil => rfl
  | cons hd tl =>
    obtain ⟨s, e⟩ := hd
    have hc : (-1 : Int) = -1 ∨ (-1 : Int) < s := Or.inl rfl
    have hstep : selectPoints (-1) ((s, e) :: tl) = e :: selectPoints e tl := by
      simp only [selectPoints]
      simp
    rw [hstep, selectPoints_eq_sentinelSelect]
    rfl

theorem selectPoints_cover :
    ∀ (segs : List (Int × Int)) (current : Int),
      List.Pairwise (fun a b => a.2 ≤ b.2) segs →
      (∀ x ∈ segs, x.1 ≤ x.2) →
      (current = -1 ∨ ∀ x ∈ segs, current ≤ x.2) →
      ∀ x ∈ segs,
        (∃ p ∈ selectPoints current segs, x.1 ≤ p ∧ p ≤ x.2) ∨
          (current ≠ -1 ∧ x.1 ≤ current ∧ current ≤ x.2) := by
  intro segs
  induction segs with
  | nil => intro current _ _ _ x hx; simp at hx
  | cons hd tl ih =>
    obtain ⟨s, e⟩ := hd
    intro current hpw hval hcur x hx
    have hse : s ≤ e := hval (s, e) (List.mem_cons_self _ _)
    have hpw2 := List.pairwise_cons.mp hpw
    have hvaltl : ∀ y ∈ tl, y.1 ≤ y.2 := fun y hy => hval y (List.mem_cons_of_mem _ hy)
    by_cases hcond : current = -1 ∨ current < s
    · have hsel : selectPoints current ((s, e) :: tl) = e :: selectPoints e tl := by
        simp only [selectPoints, if_pos hcond]
      rcases List.mem_cons.mp hx with rfl | hx
      · exact Or.inl ⟨e, by rw [hsel]; exact List.mem_cons_self _ _, hse, le_refl e⟩
      · have hcur2 : e = -1 ∨ ∀ y ∈ tl, e ≤ y.2 :=
          Or.inr fun y hy => hpw2.1 y hy
        rcases ih e hpw2.2 hvaltl hcur2 x hx with ⟨p, hp, h1, h2⟩ | ⟨_, h1, h2⟩
        · exact Or.inl ⟨p, by rw [hsel]; exact List.mem_cons_of_mem _ hp, h1, h2⟩
        · exact Or.inl ⟨e, by rw [hsel]; exact List.mem_cons_self _ _, h1, h2⟩
    · push_neg at hcond
      obtain ⟨hne, hsc⟩ := hcond
      have hsel : selectPoints current ((s, e) :: tl) = selectPoints current tl := by
        simp only [selectPoints]
        rw [if_neg]
        push_neg
        exact ⟨hne, hsc⟩
      have hcurtl : current = -1 ∨ ∀ y ∈ tl, current ≤ y.2 := by
        rcases hcur with h | h
        · exact Or.inl h
        · exact Or.inr fun y hy => h y (List.mem_cons_of_mem _ hy)
      rcases List.mem_cons.mp hx with rfl | hx
      · refine Or.inr ⟨hne, hsc, ?_⟩
        rcases hcur with h | h
        · exact absurd h hne
        · exact h (s, e) (List.mem_cons_self _ _)
      · rcases ih current hpw2.2 hvaltl hcurtl x hx with ⟨p, hp, h1, h2⟩ | hr
        · exact Or.inl ⟨p, by rw [hsel]; exact hp, h1, h2⟩
        · exact Or.inr hr

end Lemmas

end SegmentProcessor

namespace SegmentProcessor

/-- C1: the claim states that the returned point set always has minimum
cardinality among integer point sets hitting every interval.  The code
violates it: on the valid input `[(-2, -1), (-1, 0)]` it returns the two
points `[-1, 0]`, although the single point `-1` already lies in both
intervals — the `-1` sentinel for "no point chosen yet" is conflated with a
genuinely selected point of value `-1`, contradicting the function's own
name and the logged "Minimum points required". -/
theorem find_minimum_points_not_minimal_on_negative_input :
    find_minimum_points_to_cover_all_segments [(-2, -1), (-1, 0)] =
      Except.ok (2, [-1, 0]) ∧
    (∀ x ∈ [((-2 : Int), (-1 : Int)), ((-1 : Int), (0 : Int))],
      x.1 ≤ (-1 : Int) ∧ (-1 : Int) ≤ x.2) ∧
    [(-1 : Int)].length < 2 :=
  ⟨rfl, by decide, by decide⟩

/-- C4: for every segment list in which every segment satisfies
`start ≤ end`, the call succeeds and every input segment contains at least
one of the returned points (coverage invariant). -/
theorem find_minimum_points_coverage (segments : List (Int × Int))
    (h : ∀ x ∈ segments, x.1 ≤ x.2) :
    ∃ n pts, find_minimum_points_to_cover_all_segments segments =
        Except.ok (n, pts) ∧
      ∀ x ∈ segments, ∃ p ∈ pts, x.1 ≤ p ∧ p ≤ x.2 := by
  by_cases hlen : segments.length = 0
  · refine ⟨0, [], ?_, ?_⟩
    · simp [find_minimum_points_to_cover_all_segments, hlen]
    · have hnil : segments = [] := List.length_eq_zero.mp hlen
      subst hnil
      intro x hx
      simp at hx
  · have hnone := Lemmas.findInvalidAux_eq_none segments 0 h
    refine ⟨(selectPoints (-1) (sortSegments segments)).length,
      selectPoints (-1) (sortSegments segments), ?_, ?_⟩
    · simp [find_minimum_points_to_cover_all_segments, hlen, hnone]
    · intro x hx
      have hmem : x ∈ sortSegments segments := Lemmas.mem_sortSegments.mpr hx
      have hvals : ∀ y ∈ sortSegments segments, y.1 ≤ y.2 := fun y hy =>
        h y (Lemmas.mem_sortSegments.mp hy)
      have hc := Lemmas.selectPoints_cover (sortSegments segments) (-1)
        (Lemmas.sortSegments_sorted segments) hvals (Or.inl rfl) x hmem
      rcases hc with ⟨p, hp, h1, h2⟩ | ⟨hne, _, _⟩
      · exact ⟨p, hp, h1, h2⟩
      · exact absurd rfl hne

/-- Witness for C4 at the spec's own example `[(1,2), (2,3), (3,4)]`. -/
theorem find_minimum_points_coverage_witness :
    (∀ x ∈ [((1 : Int), (2 : Int)), ((2 : Int), (3 : Int)), ((3 : Int), (4 : Int))],
      x.1 ≤ x.2) ∧
    ∃ n pts, find_minimum_points_to_cover_all_segments
        [(1, 2), (2, 3), (3, 4)] = Except.ok (n, pts) ∧
      ∀ x ∈ [((1 : Int), (2 : Int)), ((2 : Int), (3 : Int)), ((3 : Int), (4 : Int))],
        ∃ p ∈ pts, x.1 ≤ p ∧ p ≤ x.2 :=
  ⟨by decide, find_minimum_points_coverage _ (by decide)⟩

/-- C5 (counterexample): the claim states that the returned points are
exactly the sequence of the spec's reference sweep, which selects only when
no point is yet chosen or the current point is strictly below the segment's
start.  On `[(-2, -1), (-1, 0)]` the code returns `[-1, 0]` while the
reference sweep yields `[-1]`, because after selecting the point `-1` the
code's sentinel test `current_covering_point == -1` fires again. -/
theorem find_minimum_points_spec_sweep_counterexample :
    find_minimum_points_to_cover_all_segments [(-2, -1), (-1, 0)] =
      Except.ok (2, [-1, 0]) ∧
    find_minimum_points_spec [(-2, -1), (-1, 0)] = [-1] ∧
    [(-1 : Int), 0] ≠ [(-1 : Int)] :=
  ⟨rfl, rfl, by decide⟩

/-- C5 (amended): for every segment list with `start ≤ end` everywhere, the
returned point set is exactly the sequence produced by sorting ascending by
right endpoint and sweeping with an optional current point that selects the
segment's end exactly when no point is yet chosen, the current point equals
`-1`, or the current point is strictly below the segment's start; in
particular `[(1,2), (2,3), (3,4)]` yields count `2` and points `[2, 4]`. -/
theorem find_minimum_points_matches_sentinel_sweep (segments : List (Int × Int))
    (h : ∀ x ∈ segments, x.1 ≤ x.2) :
    find_minimum_points_to_cover_all_segments segments =
      Except.ok ((sentinelSelect none (sortSegments segments)).length,
        sentinelSelect none (sortSegments segments)) ∧
    find_minimum_points_to_cover_all_segments [(1, 2), (2, 3), (3, 4)] =
      Except.ok (2, [2, 4]) := by
  constructor
  · by_cases hlen : segments.length = 0
    · have hnil : segments = [] := List.length_eq_zero.mp hlen
      subst hnil
      rfl
    · have hnone := Lemmas.findInvalidAux_eq_none segments 0 h
      simp [find_minimum_points_to_cover_all_segments, hlen, hnone,
        Lemmas.selectPoints_neg_one_eq_sentinelSelect_none]
  · rfl

/-- Witness for the amended C5 at the spec's example. -/
theorem find_minimum_points_matches_sentinel_sweep_witness :
    (∀ x ∈ [((1 : Int), (2 : Int)), ((2 : Int), (3 : Int)), ((3 : Int), (4 : Int))],
      x.1 ≤ x.2) ∧
    (find_minimum_points_to_cover_all_segments [(1, 2), (2, 3), (3, 4)] =
      Except.ok ((sentinelSelect none (sortSegments [(1, 2), (2, 3), (3, 4)])).length,
        sentinelSelect none (sortSegments [(1, 2), (2, 3), (3, 4)])) ∧
    find_minimum_points_to_cover_all_segments [(1, 2), (2, 3), (3, 4)] =
      Except.ok (2, [2, 4])) :=
  ⟨by decide, find_minimum_points_matches_sentinel_sweep _ (by decide)⟩

/-- C6: whenever some segment has `start > end`, the call fails with a
`ValidationError` carrying the index of the first offending segment and its
two endpoint values, and returns no points at all. -/
theorem find_minimum_points_validation_error (segments : List (Int × Int))
    (h : ∃ x ∈ segments, x.1 > x.2) :
    ∃ j s e, find_minimum_points_to_cover_all_segments segments =
        Except.error ⟨j, s, e⟩ ∧
      j < segments.length ∧ segments.getD j (0, 0) = (s, e) ∧ s > e ∧
      ∀ m < j, (segments.getD m (0, 0)).1 ≤ (segments.getD m (0, 0)).2 := by
  obtain ⟨j, s, e, heq, hj, hget, hse, hmin⟩ := Lemmas.findInvalidAux_spec segments 0 h
  simp only [Nat.zero_add] at heq
  have hlen : ¬ segments.length = 0 := by
    intro h0
    rw [List.length_eq_zero.mp h0] at h
    simp at h
  refine ⟨j, s, e, ?_, hj, hget, hse, hmin⟩
  simp [find_minimum_points_to_cover_all_segments, hlen, heq]

/-- Witness for C6 at the spec's example: the unnormalized segment `(5, 2)`. -/
theorem find_minimum_points_validation_error_witness :
    (∃ x ∈ [((5 : Int), (2 : Int))], x.1 > x.2) ∧
    ∃ j s e, find_minimum_points_to_cover_all_segments [(5, 2)] =
        Except.error ⟨j, s, e⟩ ∧
      j < [((5 : Int), (2 : Int))].length ∧
      [((5 : Int), (2 : Int))].getD j (0, 0) = (s, e) ∧ s > e ∧
      ∀ m < j, ([((5 : Int), (2 : Int))].getD m (0, 0)).1 ≤
        ([((5 : Int), (2 : Int))].getD m (0, 0)).2 :=
  ⟨by decide, find_minimum_points_validation_error _ (by decide)⟩

end SegmentProcessor

namespace FileReader

namespace Lemmas

theorem read_loop_of_done (total : Nat) :
    ∀ (lines : List Line) (read : Nat) (acc : List (Int × Int)),
      ¬ read < total → read_loop total lines read acc = Except.ok acc := by
  intro lines read acc h
  cases lines with
  | nil => simp [read_loop, h]
  | cons l rest => simp [read_loop, h]

theorem read_loop_filter_blanks (total : Nat) :
    ∀ (lines : List Line) (read : Nat) (acc : List (Int × Int)),
      read_loop total lines read acc =
        read_loop total (lines.filter fun l => !l.isBlank) read acc := by
  intro lines
  induction lines with
  | nil => intro read acc; rfl
  | cons l rest ih =>
    intro read acc
    by_cases hr : read < total
    · cases l with
      | blank =>
        simp only [read_loop, if_pos hr, List.filter_cons, Line.isBlank,
          Bool.not_true, Bool.false_eq_true, if_false]
        exact ih read acc
      | data a b =>
        simp only [List.filter_cons, Line.isBlank, Bool.not_false, if_true]
        simp only [read_loop, if_pos hr]
        exact ih (read + 1) _
      | malformed =>
        simp only [List.filter_cons, Line.isBlank, Bool.not_false, if_true]
        simp only [read_loop, if_pos hr]
    · rw [read_loop_of_done total _ read acc hr, read_loop_of_done total _ read acc hr]

theorem read_loop_premature (total : Nat) :
    ∀ (lines : List Line) (read : Nat) (acc : List (Int × Int)),
      (∀ l ∈ lines, l ≠ Line.malformed) →
      read + dataCount lines < total →
      read_loop total lines read acc = Except.error ReadError.prematureEnd := by
  intro lines
  induction lines with
  | nil =>
    intro read acc _ hcount
    have : read < total := by simpa [dataCount] using hcount
    simp [read_loop, this]
  | cons l rest ih =>
    intro read acc hmal hcount
    have hr : read < total := by
      have : dataCount (l :: rest) ≥ 0 := Nat.zero_le _
      omega
    cases l with
    | blank =>
      simp only [read_loop, if_pos hr]
      refine ih read acc (fun x hx => hmal x (List.mem_cons_of_mem _ hx)) ?_
      have : dataCount (Line.blank :: rest) = dataCount rest := by
        simp [dataCount, List.countP_cons]
      omega
    | data a b =>
      simp only [read_loop, if_pos hr]
      refine ih (read + 1) _ (fun x hx => hmal x (List.mem_cons_of_mem _ hx)) ?_
      have : dataCount (Line.data a b :: rest) = dataCount rest + 1 := by
        simp [dataCount, List.countP_cons]
      omega
    | malformed =>
      exact absurd rfl (hmal Line.malformed (List.mem_cons_self _ _))

theorem read_loop_ok_length (total : Nat) :
    ∀ (lines : List Line) (read : Nat) (acc : List (Int × Int))
      (segs : List (Int × Int)),
      acc.length = read → read ≤ total →
      read_loop total lines read acc = Except.ok segs →
      segs.length = total := by
  intro lines
  induction lines with
  | nil =>
    intro read acc segs hlen hle hok
    by_cases hr : read < total
    · simp [read_loop, hr] at hok
    · simp [read_loop, hr] at hok
      subst hok
      omega
  | cons l rest ih =>
    intro read acc segs hlen hle hok
    by_cases hr : read < total
    · cases l with
      | blank =>
        simp only [read_loop, if_pos hr] at hok
        exact ih read acc segs hlen hle hok
      | data a b =>
        simp only [read_loop, if_pos hr] at hok
        refine ih (read + 1) _ segs ?_ (by omega) hok
        simp [hlen]
      | malformed =>
        simp [read_loop, hr] at hok
    · rw [read_loop_of_done total _ read acc hr] at hok
      cases hok
      omega

end Lemmas

/-- C9: for every sequence of data lines following a header that declared a
non-negative count `total`: blank lines are skipped and do not count toward
`total` (the result is unchanged when they are removed), and if the input
ends before `total` parsed data lines have been accumulated, the reader
fails with the fatal premature-end-of-input error and returns no segments. -/
theorem read_segments_blank_lines_and_premature_eof
    (lines : List Line) (total : Nat) :
    (read_segments_from_file lines total =
      read_segments_from_file (lines.filter fun l => !l.isBlank) total) ∧
    ((∀ l ∈ lines, l ≠ Line.malformed) → dataCount lines < total →
      read_segments_from_file lines total =
        Except.error ReadError.prematureEnd) := by
  constructor
  · exact Lemmas.read_loop_filter_blanks total lines 0 []
  · intro hmal hcount
    exact Lemmas.read_loop_premature total lines 0 [] hmal (by omega)

/-- Witness for C9: a blank line plus one data line against a declared
count of two. -/
theorem read_segments_blank_lines_and_premature_eof_witness :
    (read_segments_from_file [Line.blank, Line.data 1 2] 2 =
      read_segments_from_file
        ([Line.blank, Line.data 1 2].filter fun l => !l.isBlank) 2) ∧
    read_segments_from_file [Line.blank, Line.data 1 2] 2 =
      Except.error ReadError.prematureEnd :=
  ⟨(read_segments_blank_lines_and_premature_eof [Line.blank, Line.data 1 2] 2).1,
   (read_segments_blank_lines_and_premature_eof [Line.blank, Line.data 1 2] 2).2
     (by decide) (by decide)⟩

/-- C10: whenever the reader returns without error for a non-negative
declared count `total`, the returned list holds exactly `total` segments;
consequently the non-fatal count-mismatch warning branch
(`segments_data.size() != total_segments_count`) can never be taken. -/
theorem read_segments_ok_length (lines : List Line) (total : Nat)
    (segs : List (Int × Int))
    (h : read_segments_from_file lines total = Except.ok segs) :
    segs.length = total :=
  Lemmas.read_loop_ok_length total lines 0 [] segs rfl (Nat.zero_le total) h

/-- Witness for C10: one data line, declared count one. -/
theorem read_segments_ok_length_witness :
    read_segments_from_file [Line.data 1 2, Line.blank] 1 =
      Except.ok [(1, 2)] ∧
    [((1 : Int), (2 : Int))].length = 1 :=
  ⟨rfl, read_segments_ok_length [Line.data 1 2, Line.blank] 1 [(1, 2)] rfl⟩

end FileReader

namespace TrianglePathSolver

namespace Lemmas

theorem dpRow_length :
    ∀ (row next : List Int), next.length = row.length + 1 →
      (dpRow row next).length = row.length := by
  intro row
  induction row with
  | nil => intro next _; rfl
  | cons x xs ih =>
    intro next hlen
    match next with
    | y1 :: y2 :: ys =>
      have : (y2 :: ys).length = xs.length + 1 := by
        simpa using hlen
      simp only [dpRow, List.length_cons]
      rw [ih (y2 :: ys) this]

theorem dpRow_getD :
    ∀ (row next : List Int) (j : Nat), j < row.length →
      next.length = row.length + 1 →
      (dpRow row next).getD j 0 =
        row.getD j 0 + min (next.getD j 0) (next.getD (j + 1) 0) := by
  intro row
  induction row with
  | nil => intro next j hj _; simp at hj
  | cons x xs ih =>
    intro next j hj hlen
    match next with
    | y1 :: y2 :: ys =>
      match j with
      | 0 => rfl
      | Nat.succ j2 =>
        have hj2 : j2 < xs.length := by simpa using hj
        have hlen2 : (y2 :: ys).length = xs.length + 1 := by simpa using hlen
        simpa [dpRow] using ih (y2 :: ys) j2 hj2 hlen2

theorem dpTable_length : ∀ (t : List (List Int)), (dpTable t).length = t.length := by
  intro t
  induction t with
  | nil => rfl
  | cons row rest ih =>
    cases h : dpTable rest with
    | nil =>
      have : rest.length = 0 := by rw [← ih, h]; rfl
      simp only [dpTable, h, List.length_cons]
      simp [this]
    | cons next tail =>
      simp only [dpTable, h]
      simp only [List.length_cons] at ih ⊢
      rw [← ih, h]
      rfl

theorem dpTable_tail :
    ∀ (row : List Int) (rest : List (List Int)),
      (dpTable (row :: rest)).tail = dpTable rest := by
  intro row rest
  cases h : dpTable rest with
  | nil => simp only [dpTable, h, List.tail_cons]
  | cons next tail => simp only [dpTable, h, List.tail_cons]

theorem dpTable_head_cons₂ :
    ∀ (row next : List Int) (rest : List (List Int)),
      (dpTable (row :: next :: rest)).headD [] =
        dpRow row ((dpTable (next :: rest)).headD []) := by
  intro row next rest
  have hstep : dpTable (row :: next :: rest) =
      match dpTable (next :: rest) with
      | [] => [row]
      | nd :: tail => dpRow row nd :: nd :: tail := rfl
  cases h : dpTable (next :: rest) with
  | nil =>
    have hlen : (dpTable (next :: rest)).length = rest.length + 1 := by
      rw [dpTable_length]; rfl
    rw [h] at hlen
    simp at hlen
  | cons nd tail =>
    rw [hstep, h]
    rfl

theorem rowLens_cons {k : Nat} {row : List Int} {rest : List (List Int)} :
    rowLens k (row :: rest) = true ↔
      row.length = k ∧ rowLens (k + 1) rest = true := by
  simp [rowLens, Bool.and_eq_true, Nat.beq_eq]

theorem dpTable_head_length :
    ∀ (t : List (List Int)) (k : Nat), rowLens k t = true → t ≠ [] →
      ((dpTable t).headD []).length = k := by
  intro t
  induction t with
  | nil => intro k _ hne; exact absurd rfl hne
  | cons row rest ih =>
    intro k hk _
    obtain ⟨hrow, hrest⟩ := rowLens_cons.mp hk
    cases rest with
    | nil => simpa [dpTable] using hrow
    | cons next rest2 =>
      rw [dpTable_head_cons₂]
      have hnd : ((dpTable (next :: rest2)).headD []).length = k + 1 :=
        ih (k + 1) hrest (by simp)
      rw [dpRow_length _ _ (by rw [hnd, hrow])]
      exact hrow

theorem dpTable_head_minFrom :
    ∀ (t : List (List Int)) (k : Nat), rowLens k t = true → t ≠ [] →
      ∀ j, j < k → ((dpTable t).headD []).getD j 0 = minFrom t j := by
  intro t
  induction t with
  | nil => intro k _ hne; exact absurd rfl hne
  | cons row rest ih =>
    intro k hk _ j hj
    obtain ⟨hrow, hrest⟩ := rowLens_cons.mp hk
    cases rest with
    | nil => rfl
    | cons next rest2 =>
      rw [dpTable_head_cons₂]
      have hnd : ((dpTable (next :: rest2)).headD []).length = k + 1 :=
        dpTable_head_length _ (k + 1) hrest (by simp)
      rw [dpRow_getD _ _ j (by omega) (by rw [hnd, hrow])]
      rw [ih (k + 1) hrest (by simp) j (by omega),
        ih (k + 1) hrest (by simp) (j + 1) (by omega)]
      rfl

theorem pathSum_cons (row : List Int) (rs : List (List Int)) (c : Nat)
    (cs : List Nat) :
    pathSum (row :: rs) (c :: cs) = row.getD c 0 + pathSum rs cs := by
  simp [pathSum, pathEntries]

theorem adjChain_cons₂ {a b : Nat} {rest : List Nat} :
    AdjChain (a :: b :: rest) ↔ (b = a ∨ b = a + 1) ∧ AdjChain (b :: rest) :=
  Iff.rfl

theorem minFrom_le_pathSum :
    ∀ (t : List (List Int)) (j : Nat) (cs : List Nat),
      ValidPathFrom j t cs → minFrom t j ≤ pathSum t cs := by
  intro t
  induction t with
  | nil =>
    intro j cs hv
    obtain ⟨hh, _, hf⟩ := hv
    cases hf
    simp at hh
  | cons row rest ih =>
    intro j cs hv
    obtain ⟨hh, hadj, hf⟩ := hv
    rcases List.forall₂_cons_left_iff.mp hf with ⟨c, cs2, hc, hf2, rfl⟩
    have hcj : c = j := by simpa using hh
    subst hcj
    cases rest with
    | nil =>
      cases hf2
      simp only [minFrom, pathSum, pathEntries, List.zipWith_cons_cons,
        List.zipWith_nil_right, List.sum_cons, List.sum_nil, add_zero]
      exact le_refl _
    | cons next rest2 =>
      rcases List.forall₂_cons_left_iff.mp hf2 with ⟨c2, cs3, hc2, hf3, rfl⟩
      have hadj2 := adjChain_cons₂.mp hadj
      have hvtail : ValidPathFrom c2 (next :: rest2) (c2 :: cs3) :=
        ⟨rfl, hadj2.2, List.forall₂_cons.mpr ⟨hc2, hf3⟩⟩
      have hle := ih c2 (c2 :: cs3) hvtail
      rw [pathSum_cons]
      simp only [minFrom]
      have hmin : min (minFrom (next :: rest2) c)
          (minFrom (next :: rest2) (c + 1)) ≤ pathSum (next :: rest2) (c2 :: cs3) := by
        rcases hadj2.1 with h2 | h2
        · subst h2; exact le_trans (min_le_left _ _) hle
        · subst h2; exact le_trans (min_le_right _ _) hle
      exact add_le_add_left hmin _

theorem exists_path_minFrom :
    ∀ (t : List (List Int)) (k : Nat), rowLens k t = true → t ≠ [] →
      ∀ j, j < k → ∃ cs, ValidPathFrom j t cs ∧ pathSum t cs = minFrom t j := by
  intro t
  induction t with
  | nil => intro k _ hne; exact absurd rfl hne
  | cons row rest ih =>
    intro k hk _ j hj
    obtain ⟨hrow, hrest⟩ := rowLens_cons.mp hk
    cases rest with
    | nil =>
      refine ⟨[j], ⟨rfl, trivial, ?_⟩, ?_⟩
      · exact List.forall₂_cons.mpr ⟨by omega, List.Forall₂.nil⟩
      · simp only [minFrom, pathSum, pathEntries, List.zipWith_cons_cons,
          List.zipWith_nil_right, List.sum_cons, List.sum_nil, add_zero]
    | cons next rest2 =>
      by_cases hab : minFrom (next :: rest2) j ≤ minFrom (next :: rest2) (j + 1)
      · obtain ⟨cs2, hv2, hs2⟩ := ih (k + 1) hrest (by simp) j (by omega)
        obtain ⟨hh2, hadj2, hf2⟩ := hv2
        rcases List.forall₂_cons_left_iff.mp hf2 with ⟨c2, cs3, hc2, hf3, rfl⟩
        have hcj : c2 = j := by simpa using hh2
        refine ⟨j :: c2 :: cs3, ⟨rfl, ?_, ?_⟩, ?_⟩
        · exact adjChain_cons₂.mpr ⟨Or.inl hcj, hadj2⟩
        · exact List.forall₂_cons.mpr ⟨by omega, List.forall₂_cons.mpr ⟨hc2, hf3⟩⟩
        · rw [pathSum_cons, hs2]
          simp only [minFrom]
          rw [min_eq_left hab]
      · obtain ⟨cs2, hv2, hs2⟩ := ih (k + 1) hrest (by simp) (j + 1) (by omega)
        obtain ⟨hh2, hadj2, hf2⟩ := hv2
        rcases List.forall₂_cons_left_iff.mp hf2 with ⟨c2, cs3, hc2, hf3, rfl⟩
        have hcj : c2 = j + 1 := by simpa using hh2
        refine ⟨j :: c2 :: cs3, ⟨rfl, ?_, ?_⟩, ?_⟩
        · exact adjChain_cons₂.mpr ⟨Or.inr hcj, hadj2⟩
        · exact List.forall₂_cons.mpr ⟨by omega, List.forall₂_cons.mpr ⟨hc2, hf3⟩⟩
        · rw [pathSum_cons, hs2]
          simp only [minFrom]
          rw [min_eq_right (le_of_not_le hab)]

theorem dpTable_eq_head_cons (x : List Int) (xs : List (List Int)) :
    dpTable (x :: xs) = ((dpTable (x :: xs)).headD []) :: dpTable xs := by
  have hstep : dpTable (x :: xs) =
      match dpTable xs with
      | [] => [x]
      | nd :: tail => dpRow x nd :: nd :: tail := rfl
  cases h : dpTable xs with
  | nil =>
    rw [hstep, h]
    rfl
  | cons nd tail =>
    rw [hstep, h]
    rfl

theorem pathEntries_cons (row : List Int) (rs : List (List Int)) (c : Nat)
    (cs : List Nat) :
    pathEntries (row :: rs) (c :: cs) = row.getD c 0 :: pathEntries rs cs := rfl

theorem pathFrom_spec :
    ∀ (rest : List (List Int)) (prevT : List Int) (k c : Nat),
      rowLens k (prevT :: rest) = true → c < k →
      ∃ cs,
        List.Forall₂ (fun (row : List Int) (c2 : Nat) => c2 < row.length) rest cs ∧
        AdjChain (c :: cs) ∧
        pathFrom c prevT ((dpTable (prevT :: rest)).headD [])
          (rest.zip (dpTable rest)) = pathEntries rest cs ∧
        prevT.getD c 0 +
          (pathFrom c prevT ((dpTable (prevT :: rest)).headD [])
            (rest.zip (dpTable rest))).sum =
          ((dpTable (prevT :: rest)).headD []).getD c 0 := by
  intro rest
  induction rest with
  | nil =>
    intro prevT k c _ _
    exact ⟨[], List.Forall₂.nil, trivial, rfl, by simp [pathFrom, dpTable]⟩
  | cons next rest2 ih =>
    intro prevT k c hk hc
    obtain ⟨hprev, hrest⟩ := rowLens_cons.mp hk
    obtain ⟨hnext, _⟩ := rowLens_cons.mp hrest
    have hhead : (dpTable (prevT :: next :: rest2)).headD [] =
        dpRow prevT ((dpTable (next :: rest2)).headD []) := dpTable_head_cons₂ _ _ _
    set nd := (dpTable (next :: rest2)).headD [] with hnddef
    have hndlen : nd.length = k + 1 := dpTable_head_length _ (k + 1) hrest (by simp)
    have hdp : (dpRow prevT nd).getD c 0 =
        prevT.getD c 0 + min (nd.getD c 0) (nd.getD (c + 1) 0) :=
      dpRow_getD _ _ c (by omega) (by rw [hndlen, hprev])
    have hexp : (dpRow prevT nd).getD c 0 - prevT.getD c 0 =
        min (nd.getD c 0) (nd.getD (c + 1) 0) := by rw [hdp]; ring
    have hzip : (next :: rest2).zip (dpTable (next :: rest2)) =
        (next, nd) :: rest2.zip (dpTable rest2) := by
      rw [dpTable_eq_head_cons next rest2, List.zip_cons_cons]
    rw [hhead, hzip]
    simp only [pathFrom]
    rw [hexp]
    by_cases hcond : nd.getD c 0 = min (nd.getD c 0) (nd.getD (c + 1) 0)
    · rw [if_pos hcond]
      obtain ⟨cs2, hf2, hadj2, hlist2, hsum2⟩ := ih next (k + 1) c hrest (by omega)
      refine ⟨c :: cs2, ?_, ?_, ?_, ?_⟩
      · exact List.forall₂_cons.mpr ⟨by omega, hf2⟩
      · exact adjChain_cons₂.mpr ⟨Or.inl rfl, hadj2⟩
      · rw [hlist2, pathEntries_cons]
      · rw [List.sum_cons]
        have := hsum2
        linarith [hdp, hsum2]
    · rw [if_neg hcond]
      have hcond2 : nd.getD (c + 1) 0 = min (nd.getD c 0) (nd.getD (c + 1) 0) := by
        rcases min_choice (nd.getD c 0) (nd.getD (c + 1) 0) with h2 | h2
        · exact absurd h2.symm hcond
        · exact h2.symm
      obtain ⟨cs2, hf2, hadj2, hlist2, hsum2⟩ := ih next (k + 1) (c + 1) hrest (by omega)
      refine ⟨(c + 1) :: cs2, ?_, ?_, ?_, ?_⟩
      · exact List.forall₂_cons.mpr ⟨by omega, hf2⟩
      · exact adjChain_cons₂.mpr ⟨Or.inr rfl, hadj2⟩
      · rw [hlist2, pathEntries_cons]
      · rw [List.sum_cons]
        linarith [hdp, hsum2]

theorem minimum_total_eq (row0 : List Int) (rest : List (List Int))
    (h : row0.isEmpty = false) :
    minimum_total (row0 :: rest) =
      (((dpTable (row0 :: rest)).headD []).getD 0 0,
        row0.getD 0 0 :: pathFrom 0 row0 ((dpTable (row0 :: rest)).headD [])
          (rest.zip (dpTable rest))) := by
  simp only [minimum_total, h, Bool.false_eq_true, if_false]
  rw [dpTable_tail]

end Lemmas

/-- C2: for every well-formed non-empty triangle, the returned `total`
equals `dp[0][0]` of the bottom-up recurrence (`minFrom t 0`) and is exactly
the minimum achievable sum over all top-to-bottom paths that start at the
single top entry and step to the same or the next column of each following
row. -/
theorem minimum_total_is_minimum (t : List (List Int)) (h : WellFormed t)
    (hne : t ≠ []) :
    (minimum_total t).1 = minFrom t 0 ∧
    (∀ cs, ValidPath t cs → (minimum_total t).1 ≤ pathSum t cs) ∧
    (∃ cs, ValidPath t cs ∧ pathSum t cs = (minimum_total t).1) := by
  cases t with
  | nil => exact absurd rfl hne
  | cons row0 rest =>
    obtain ⟨hrow, hrest⟩ := Lemmas.rowLens_cons.mp h
    have hemp : row0.isEmpty = false := by
      cases row0 with
      | nil => simp at hrow
      | cons a as => rfl
    have htot : (minimum_total (row0 :: rest)).1 = minFrom (row0 :: rest) 0 := by
      rw [Lemmas.minimum_total_eq row0 rest hemp]
      exact Lemmas.dpTable_head_minFrom (row0 :: rest) 1 h (by simp) 0 (by omega)
    refine ⟨htot, ?_, ?_⟩
    · intro cs hv
      rw [htot]
      exact Lemmas.minFrom_le_pathSum (row0 :: rest) 0 cs hv
    · obtain ⟨cs, hv, hs⟩ :=
        Lemmas.exists_path_minFrom (row0 :: rest) 1 h (by simp) 0 (by omega)
      exact ⟨cs, hv, by rw [hs, htot]⟩

/-- Witness for C2 at the repository's test triangle
`[[2], [3,4], [6,5,7], [4,1,8,3]]`. -/
theorem minimum_total_is_minimum_witness :
    WellFormed exampleTriangle ∧ exampleTriangle ≠ [] ∧
    ((minimum_total exampleTriangle).1 = minFrom exampleTriangle 0 ∧
      (∀ cs, ValidPath exampleTriangle cs →
        (minimum_total exampleTriangle).1 ≤ pathSum exampleTriangle cs) ∧
      (∃ cs, ValidPath exampleTriangle cs ∧
        pathSum exampleTriangle cs = (minimum_total exampleTriangle).1)) :=
  ⟨rfl, by decide,
    minimum_total_is_minimum exampleTriangle rfl (by decide)⟩

/-- C3: for every well-formed non-empty triangle, the returned `path` has
one entry per triangle row, its entries are drawn row by row along a column
sequence that starts at the top and is adjacent (same or +1) at each step,
its sum equals the returned `total`, and on a DP tie
(`dp[i+1][j] = dp[i+1][j+1]`) the reconstruction step keeps the same
column. -/
theorem minimum_total_path_valid (t : List (List Int)) (h : WellFormed t)
    (hne : t ≠ []) :
    (minimum_total t).2.length = t.length ∧
    (∃ cs, ValidPath t cs ∧ (minimum_total t).2 = pathEntries t cs) ∧
    (minimum_total t).2.sum = (minimum_total t).1 ∧
    (∀ (prevT prevDp next nd : List Int) (tail : List (List Int × List Int))
      (c : Nat),
      prevDp.getD c 0 = prevT.getD c 0 + min (nd.getD c 0) (nd.getD (c + 1) 0) →
      nd.getD c 0 = nd.getD (c + 1) 0 →
      pathFrom c prevT prevDp ((next, nd) :: tail) =
        next.getD c 0 :: pathFrom c next nd tail) := by
  cases t with
  | nil => exact absurd rfl hne
  | cons row0 rest =>
    obtain ⟨hrow, hrest⟩ := Lemmas.rowLens_cons.mp h
    have hemp : row0.isEmpty = false := by
      cases row0 with
      | nil => simp at hrow
      | cons a as => rfl
    obtain ⟨cs2, hf2, hadj2, hlist2, hsum2⟩ :=
      Lemmas.pathFrom_spec rest row0 1 0 h (by omega)
    have hmt := Lemmas.minimum_total_eq row0 rest hemp
    have hlen2 : cs2.length = rest.length := (List.Forall₂.length_eq hf2).symm
    refine ⟨?_, ⟨0 :: cs2, ⟨rfl, hadj2, ?_⟩, ?_⟩, ?_, ?_⟩
    · rw [hmt]
      simp only [List.length_cons]
      rw [hlist2]
      simp [pathEntries, List.length_zipWith, hlen2]
    · exact List.forall₂_cons.mpr ⟨by omega, hf2⟩
    · rw [hmt, Lemmas.pathEntries_cons, hlist2]
    · rw [hmt]
      simp only [List.sum_cons]
      exact hsum2
    · intro prevT prevDp next nd tail c h1 h2
      have hx : nd.getD c 0 = prevDp.getD c 0 - prevT.getD c 0 := by
        rw [h1, min_eq_left (le_of_eq h2)]
        ring
      simp only [pathFrom]
      rw [if_pos hx]

/-- Witness for C3 at the repository's test triangle, with the tie-break
clause instantiated at a concrete tied DP cell. -/
theorem minimum_total_path_valid_witness :
    WellFormed exampleTriangle ∧ exampleTriangle ≠ [] ∧
    (minimum_total exampleTriangle).2.length = exampleTriangle.length ∧
    (∃ cs, ValidPath exampleTriangle cs ∧
      (minimum_total exampleTriangle).2 = pathEntries exampleTriangle cs) ∧
    (minimum_total exampleTriangle).2.sum = (minimum_total exampleTriangle).1 ∧
    pathFrom 0 [1] [3] [([1, 1], [2, 2])] = [1] := by
  have h := minimum_total_path_valid exampleTriangle rfl (by decide)
  exact ⟨rfl, by decide, h.1, h.2.1, h.2.2.1,
    h.2.2.2 [1] [3] [1, 1] [2, 2] [] 0 (by decide) (by decide)⟩

/-- C8: a triangle with zero rows, and any triangle whose first row is
empty, yields `{total: 0, path: []}` without error. -/
theorem minimum_total_degenerate :
    minimum_total ([] : List (List Int)) = (0, []) ∧
    ∀ rest : List (List Int), minimum_total ([] :: rest) = (0, []) :=
  ⟨rfl, fun _ => rfl⟩

end TrianglePathSolver

/-! Concrete checks of the embedding against the test cases recorded in the
repository's sources and in the spec (§8). -/
example :
    SegmentProcessor.find_minimum_points_to_cover_all_segments
      [(1, 2), (2, 3), (3, 4)] = Except.ok (2, [2, 4]) := rfl

example :
    SegmentProcessor.find_minimum_points_to_cover_all_segments
      [(-2, -1), (-1, 0)] = Except.ok (2, [-1, 0]) := rfl

example :
    SegmentProcessor.find_minimum_points_spec [(-2, -1), (-1, 0)] = [-1] := by decide

example :
    TrianglePathSolver.minimum_total [[2], [3, 4], [6, 5, 7], [4, 1, 8, 3]] =
      (11, [2, 3, 5, 1]) := rfl

example : TrianglePathSolver.minimum_total [[5]] = (5, [5]) := rfl

example :
    TrianglePathSolver.minimum_total [[-1], [2, 3], [1, -1, -3], [4, 2, 1, 3]] =
      (0, [-1, 3, -3, 1]) := rfl

example : TrianglePathSolver.minFrom [[2], [3, 4], [6, 5, 7], [4, 1, 8, 3]] 0 = 11 := rfl

example :
    FileReader.read_segments_from_file
      [FileReader.Line.blank, FileReader.Line.data 3 1, FileReader.Line.data 2 5] 2 =
      Except.ok [(1, 3), (2, 5)] := rfl

example :
    FileReader.read_segments_from_file [FileReader.Line.data 3 1] 2 =
      Except.error FileReader.ReadError.prematureEnd := rfl
